import Mathlib

/-!
Verification of the text-to-PDF pagination/layout engine of the repository
(`convertTextToPdf` in the document-conversion route).

Strings are modelled as `List Char`.  The external font collaborator
(`font.widthOfTextAtSize`) is modelled as an explicit width-function
parameter `wf : PFont → List Char → ℚ → ℚ`; all page geometry is embedded
with the literal constants the source hardcodes (letter page 612×792,
margin 50, fontSize 12, smallFontSize 10, titleFontSize 18,
lineHeight = fontSize·1.5).  All arithmetic the engine's control flow
depends on (margins, the line pitch 18, cursor positions) is exact in
IEEE doubles, so `ℚ` models the JavaScript number arithmetic faithfully.
-/

namespace TextApp

/-- JavaScript `\s` character class: ASCII whitespace, NBSP, the Unicode
space separators, the line/paragraph separators and the BOM. -/
def isWS (c : Char) : Bool :=
  c = ' ' || c = '\t' || c = '\n' || c.val = 11 || c.val = 12 || c = '\r' ||
  c.val = 0xA0 || c.val = 0x1680 || (0x2000 ≤ c.val && c.val ≤ 0x200A) ||
  c.val = 0x2028 || c.val = 0x2029 || c.val = 0x202F || c.val = 0x205F ||
  c.val = 0x3000 || c.val = 0xFEFF

/-- JavaScript `\w` character class (ASCII word characters). -/
def isWordChar (c : Char) : Bool :=
  ('a' ≤ c && c ≤ 'z') || ('A' ≤ c && c ≤ 'Z') || ('0' ≤ c && c ≤ '9') || c = '_'

/-- JavaScript `String.prototype.trim`: strip whitespace from both ends. -/
def trim (cs : List Char) : List Char :=
  ((cs.dropWhile isWS).reverse.dropWhile isWS).reverse

/-- Worker for `splitWs`.  The state is `none` while scanning a whitespace
separator run and `some cur` while accumulating a token (reversed). -/
def splitWsGo : List Char → Option (List Char) → List (List Char)
  | [], some cur => [cur.reverse]
  | [], none => [[]]
  | c :: cs, some cur =>
      if isWS c then cur.reverse :: splitWsGo cs none
      else splitWsGo cs (some (c :: cur))
  | c :: cs, none =>
      if isWS c then splitWsGo cs none
      else splitWsGo cs (some [c])

/-- JavaScript `paragraph.split(/\s+/)`: tokens between maximal whitespace
runs, with an empty token at either end when the string starts or ends
with whitespace, and `[""]` for the empty string. -/
def splitWs (cs : List Char) : List (List Char) :=
  splitWsGo cs (some [])

/-- The whitespace-separated words of a string: the non-empty tokens of
`splitWs`. -/
def wordsOf (cs : List Char) : List (List Char) :=
  (splitWs cs).filter (fun t => !t.isEmpty)

/-- One matching step of the paragraph separator regex `/\n\s*\n/` after an
initial `'\n'` has been consumed: greedily take the maximal whitespace run;
if it contains a `'\n'`, the (greedy) match ends at the last `'\n'` of that
run and the remainder of the input is returned. -/
def sepSplit (cs : List Char) : Option (List Char) :=
  let r := cs.takeWhile isWS
  let rest := cs.dropWhile isWS
  if r.contains '\n' then
    some ((r.reverse.takeWhile (fun c => c != '\n')).reverse ++ rest)
  else
    none

/-- Worker for `splitParas`: scan the text, accumulating the current
paragraph (reversed); at each `'\n'`, try to complete a `/\n\s*\n/`
separator match via `sepSplit`.  Recursion is on an explicit fuel so
the definition is structural (and reduces); `sepSplit` never lengthens
its input, so `fuel = cs.length` suffices and the fuel-exhausted branch
is unreachable. -/
def paraGo : ℕ → List Char → List Char → List (List Char)
  | _, [], acc => [acc.reverse]
  | 0, _ :: _, acc => [acc.reverse]
  | fuel + 1, c :: cs', acc =>
      if c = '\n' then
        match sepSplit cs' with
        | some rest => acc.reverse :: paraGo fuel rest []
        | none => paraGo fuel cs' ('\n' :: acc)
      else paraGo fuel cs' (c :: acc)

/-- JavaScript `textContent.split(/\n\s*\n/)`: the paragraph split of the
input text. -/
def splitParas (cs : List Char) : List (List Char) :=
  paraGo cs.length cs []

/-- The fonts the conversion embeds (Helvetica regular / bold). -/
inductive PFont where
  | regular
  | bold
deriving DecidableEq

/-- A positioned text run drawn onto a page (`page.drawText` call). -/
structure TextRun where
  text : List Char
  x : ℚ
  y : ℚ
  size : ℚ
  font : PFont
  color : ℚ × ℚ × ℚ
deriving DecidableEq

/-- The transient layout state: the completed earlier pages in order, the
runs of the current page in draw order, and the vertical cursor.  The
source keeps `currentPage` and `y` as locals; `currentPage` is always the
most recently added page. -/
structure LState where
  prev : List (List TextRun)
  cur : List TextRun
  y : ℚ
deriving DecidableEq

/-- All pages of a layout state, in order (current page last). -/
def pagesOf (st : LState) : List (List TextRun) :=
  st.prev ++ [st.cur]

/-- All runs drawn so far, in draw order. -/
def allRuns (st : LState) : List TextRun :=
  st.prev.flatten ++ st.cur

/-- `pdfDoc.addPage([612, 792])` followed by `y = height - margin - fontSize`:
the current page is completed and a fresh page becomes current. -/
def newPage (st : LState) : LState :=
  { prev := st.prev ++ [st.cur], cur := [], y := 792 - 50 - 12 }

/-- `currentPage.drawText(text, {x, y, size, font, color: rgb(0,0,0)})`. -/
def draw (st : LState) (text : List Char) (size : ℚ) (font : PFont) : LState :=
  { st with cur := st.cur ++ [⟨text, 50, st.y, size, font, (0, 0, 0)⟩] }

/-- The greedy word-wrap loop of the source: accumulate words into
`cur`; when `cur + " " + word` no longer fits in `mw`, push `cur` and
start over from `word`; finally push `cur` if non-empty.  `wf` is the
external `font.widthOfTextAtSize`. -/
def wrapWords (wf : PFont → List Char → ℚ → ℚ) (font : PFont) (size mw : ℚ) :
    List (List Char) → List Char → List (List Char)
  | [], cur => if cur.isEmpty then [] else [cur]
  | w :: ws, cur =>
      let testLine := if cur.isEmpty then w else cur ++ ' ' :: w
      if wf font testLine size ≤ mw then
        wrapWords wf font size mw ws testLine
      else
        cur :: wrapWords wf font size mw ws w

/-- The heading heuristic of the source:
`paragraph.trim().length < 80 && (paragraph.endsWith(':') ||
!paragraph.includes('.') || paragraph.toUpperCase() === paragraph)`.
`toUpperCase` is modelled on ASCII letters via `Char.toUpper`. -/
def isHeading (para : List Char) : Bool :=
  decide ((trim para).length < 80) &&
    (decide (para.getLast? = some ':') || !(para.contains '.') ||
      decide (para.map Char.toUpper = para))

/-- The font chosen for a paragraph. -/
def fontOf (para : List Char) : PFont :=
  if isHeading para then .bold else .regular

/-- The size chosen for a paragraph (`fontSize * 1.2` for headings). -/
def sizeOf (para : List Char) : ℚ :=
  if isHeading para then 12 * 1.2 else 12

/-- The wrapped lines of one paragraph: greedy word-wrap of its
`split(/\s+/)` tokens into the usable width `612 - 50*2`. -/
def linesOfPara (wf : PFont → List Char → ℚ → ℚ) (para : List Char) :
    List (List Char) :=
  wrapWords wf (fontOf para) (sizeOf para) (612 - 50 * 2) (splitWs para) []

/-- Drawing one wrapped line: draw at the cursor, decrement `y` by
`lineHeight = 12 * 1.5`, and if the cursor has run out of space
(`y < margin`) add a new page. -/
def placeLine (size : ℚ) (font : PFont) (st : LState) (line : List Char) : LState :=
  let st1 := draw st line size font
  let y1 := st.y - 12 * 1.5
  if y1 < 50 then newPage { st1 with y := y1 } else { st1 with y := y1 }

/-- Processing one paragraph: skip if blank; classify; wrap; if the whole
block of wrapped lines would run under the margin
(`y - lines.length * lineHeight < margin`) start a new page; draw the
lines; then apply the inter-paragraph gap `y -= fontSize`. -/
def placePara (wf : PFont → List Char → ℚ → ℚ) (st : LState) (para : List Char) :
    LState :=
  if (trim para).isEmpty then st
  else
    let font := fontOf para
    let size := sizeOf para
    let lines := linesOfPara wf para
    let st1 := if st.y - (lines.length : ℚ) * (12 * 1.5) < 50 then newPage st else st
    let st2 := lines.foldl (placeLine size font) st1
    { st2 with y := st2.y - 12 }

/-- The footer text `Page ${i} of ${n}`. -/
def footerText (i n : ℕ) : List Char :=
  ("Page ".data) ++ (Nat.repr i).data ++ (" of ".data) ++ (Nat.repr n).data

/-- The footer run drawn on page `i` (0-based) of an `n`-page document:
`Page ${i+1} of ${n}` at `(margin, margin / 2)`, size 10, gray. -/
def footerRun (i n : ℕ) : TextRun :=
  ⟨footerText (i + 1) n, 50, 50 / 2, 10, .regular, (0.5, 0.5, 0.5)⟩

/-- The footer-stamping pass: append the footer run to every page. -/
def addFooters (n : ℕ) : ℕ → List (List TextRun) → List (List TextRun)
  | _, [] => []
  | i, p :: ps => (p ++ [footerRun i n]) :: addFooters n (i + 1) ps

/-- The last path component of `textPath` (`textPath.split(/[\\/]/).pop()`),
defaulting to `"Document"` when it is empty (`|| 'Document'`). -/
def filenameOf (path : List Char) : List Char :=
  let last := (path.reverse.takeWhile (fun c => c != '/' && c != '\\')).reverse
  if last.isEmpty then "Document".data else last

/-- `filename.replace(/\.\w+$/, '')`: strip a trailing dot-extension of
word characters, when present. -/
def stripExt (f : List Char) : List Char :=
  let after := f.reverse.takeWhile (fun c => c != '.')
  match f.reverse.dropWhile (fun c => c != '.') with
  | [] => f
  | _ :: before =>
      if !after.isEmpty && after.all isWordChar then before.reverse else f

/-- The document title derived from the input path. -/
def titleOf (path : List Char) : List Char :=
  stripExt (filenameOf path)

/-- The layout engine `convertTextToPdf` (everything except the file I/O
and the PDF byte serialization, which are external): first page created,
title drawn at `y = 792 - 50 - 18`, `y` decremented by `18 * 1.5`, every
paragraph of `split(/\n\s*\n/)` placed in order, then the footer pass over
the completed page list. -/
def convertTextToPdf (wf : PFont → List Char → ℚ → ℚ)
    (textPath textContent : List Char) : List (List TextRun) :=
  let st0 : LState := ⟨[], [], 792 - 50 - 18⟩
  let st1 := draw st0 (titleOf textPath) 18 .bold
  let st2 := { st1 with y := st1.y - 18 * 1.5 }
  let st3 := (splitParas textContent).foldl (placePara wf) st2
  let pages := pagesOf st3
  addFooters pages.length 0 pages

/-- The run drawn for one wrapped line. -/
def lineRun (line : List Char) (y size : ℚ) (font : PFont) : TextRun :=
  ⟨line, 50, y, size, font, (0, 0, 0)⟩

/-- The runs a block of consecutive lines produces when drawn from vertical
position `y` with no intervening page break. -/
def runsFrom (size : ℚ) (font : PFont) : ℚ → List (List Char) → List TextRun
  | _, [] => []
  | y, l :: ls => lineRun l y size font :: runsFrom size font (y - 12 * 1.5) ls

/-- The layout state right after the title has been drawn on page 1. -/
def titleState (path : List Char) : LState :=
  ⟨[], [⟨titleOf path, 50, 792 - 50 - 18, 18, .bold, (0, 0, 0)⟩],
    792 - 50 - 18 - 18 * 1.5⟩

/-- Modelled from the spec: the page-geometry configuration record of the
layout contract (spec 4.1).  The repository's `convertTextToPdf` hardcodes
the default values and takes no geometry argument. -/
structure PageGeometry where
  pageWidth : ℚ
  pageHeight : ℚ
  margin : ℚ
  fontSize : ℚ
  headingFontSize : ℚ
  titleFontSize : ℚ
  lineHeightFactor : ℚ
  footerFontSize : ℚ
deriving DecidableEq

/-- Modelled from the spec: geometry validity (spec 7): width, height and
margin positive, and the margin below half of both dimensions so a usable
area remains. -/
def validGeometry (g : PageGeometry) : Bool :=
  decide (0 < g.pageWidth) && decide (0 < g.pageHeight) && decide (0 < g.margin) &&
    decide (g.margin < g.pageWidth / 2) && decide (g.margin < g.pageHeight / 2)

/-- Modelled from the spec: the engine's error taxonomy (spec 7) has exactly
one error kind. -/
inductive LayoutError where
  | configurationError
deriving DecidableEq

/-- Modelled from the spec: the checked layout contract
`layout(text, filenameForTitle, geometry)` of spec 4.1 and 7: malformed
geometry is rejected with a configuration error before any layout work;
valid geometry runs the engine (the repository's engine supports exactly
the default geometry, which the defaults of spec 4.1 pin down). -/
def layoutChecked (wf : PFont → List Char → ℚ → ℚ) (g : PageGeometry)
    (path text : List Char) : Except LayoutError (List (List TextRun)) :=
  if validGeometry g then .ok (convertTextToPdf wf path text)
  else .error .configurationError

/-- The spec's default geometry (spec 4.1). -/
def defaultGeometry : PageGeometry :=
  ⟨612, 792, 50, 12, 12 * 1.2, 18, 1.5, 10⟩

/-- A concrete width function used in witnesses and counterexamples:
200 units per character, independent of font and size (an admissible
behaviour of the external `widthOfTextAtSize` collaborator: under it at
most two one-character words fit on a 512-unit line). -/
def cw : PFont → List Char → ℚ → ℚ := fun _ s _ => (s.length : ℚ) * 200

/-- `n` one-character words separated by single spaces. -/
def aWords : Nat → List Char
  | 0 => []
  | n + 1 => if n = 0 then ['a'] else 'a' :: ' ' :: aWords n

theorem splitWsGo_not_ws (cs : List Char) : ∀ (st : Option (List Char)),
    (∀ cur ∈ st, ∀ c ∈ cur, isWS c = false) →
    ∀ t ∈ splitWsGo cs st, ∀ c ∈ t, isWS c = false := by
  induction cs with
  | nil =>
    intro st hst t ht c hc
    match st, ht with
    | some cur, ht =>
      simp only [splitWsGo, List.mem_singleton] at ht
      subst ht
      exact hst cur rfl c (List.mem_reverse.mp hc)
    | none, ht =>
      simp only [splitWsGo, List.mem_singleton] at ht
      subst ht
      simp at hc
  | cons a cs ih =>
    intro st hst t ht c hc
    match st with
    | some cur =>
      simp only [splitWsGo] at ht
      by_cases ha : isWS a
      · simp only [ha, if_true, List.mem_cons] at ht
        rcases ht with ht | ht
        · subst ht; exact hst cur rfl c (List.mem_reverse.mp hc)
        · exact ih none (by simp) t ht c hc
      · simp only [ha, if_false] at ht
        refine ih (some (a :: cur)) ?_ t ht c hc
        intro cur' hcur' c' hc'
        cases hcur'
        rcases List.mem_cons.mp hc' with h | h
        · subst h; simpa using ha
        · exact hst cur rfl c' h
    | none =>
      simp only [splitWsGo] at ht
      by_cases ha : isWS a
      · simp only [ha, if_true] at ht
        exact ih none (by simp) t ht c hc
      · simp only [ha, if_false] at ht
        refine ih (some [a]) ?_ t ht c hc
        intro cur' hcur' c' hc'
        cases hcur'
        rcases List.mem_singleton.mp hc' with h
        subst h; simpa using ha

theorem splitWsGo_none_filter (b : List Char) :
    (splitWsGo b none).filter (fun t => !t.isEmpty)
      = (splitWsGo b (some [])).filter (fun t => !t.isEmpty) := by
  cases b with
  | nil => rfl
  | cons x b =>
    by_cases hx : isWS x
    · simp [splitWsGo, hx, List.filter_cons]
    · simp [splitWsGo, hx]

theorem splitWsGo_append_ws (c : Char) (hc : isWS c = true) (b : List Char) :
    ∀ (a : List Char) (st : Option (List Char)),
    ((splitWsGo (a ++ c :: b) st).filter (fun t => !t.isEmpty))
      = ((splitWsGo a st).filter (fun t => !t.isEmpty))
        ++ ((splitWsGo b none).filter (fun t => !t.isEmpty)) := by
  intro a
  induction a with
  | nil =>
    intro st
    match st with
    | some cur =>
      by_cases hcur : cur.reverse.isEmpty
      · simp [splitWsGo, hc, List.filter_cons, hcur]
      · simp [splitWsGo, hc, List.filter_cons, hcur]
    | none => simp [splitWsGo, hc, List.filter_cons]
  | cons x a ih =>
    intro st
    match st with
    | some cur =>
      by_cases hx : isWS x
      · simp only [List.cons_append, splitWsGo, hx, if_true, List.filter_cons, List.append_eq]
        rw [ih none]
        by_cases hcur : cur.reverse.isEmpty <;> simp [hcur]
      · simp only [List.cons_append, splitWsGo, hx, if_false]
        exact ih (some (x :: cur))
    | none =>
      by_cases hx : isWS x
      · simp only [List.cons_append, splitWsGo, hx, if_true]
        exact ih none
      · simp only [List.cons_append, splitWsGo, hx, if_false]
        exact ih (some [x])

theorem wordsOf_nil : wordsOf [] = [] := rfl

theorem wordsOf_append_ws (a b : List Char) (c : Char) (hc : isWS c = true) :
    wordsOf (a ++ c :: b) = wordsOf a ++ wordsOf b := by
  unfold wordsOf splitWs
  rw [splitWsGo_append_ws c hc b a (some []), splitWsGo_none_filter]

theorem splitWsGo_no_ws (t : List Char) (h : ∀ c ∈ t, isWS c = false) :
    ∀ cur, splitWsGo t (some cur) = [cur.reverse ++ t] := by
  induction t with
  | nil => intro cur; simp [splitWsGo]
  | cons x t ih =>
    intro cur
    have hx : isWS x = false := h x (List.mem_cons_self x t)
    simp only [splitWsGo, hx, if_false]
    rw [ih (fun c hct => h c (List.mem_cons_of_mem x hct)) (x :: cur)]
    simp

theorem wordsOf_no_ws (t : List Char) (h : ∀ c ∈ t, isWS c = false) :
    wordsOf t = if t.isEmpty then [] else [t] := by
  unfold wordsOf splitWs
  rw [splitWsGo_no_ws t h []]
  cases t <;> simp [List.filter_cons]

theorem flatten_map_wordsOf (l : List (List Char))
    (h : ∀ t ∈ l, ∀ c ∈ t, isWS c = false) :
    (l.map wordsOf).flatten = l.filter (fun t => !t.isEmpty) := by
  induction l with
  | nil => rfl
  | cons t l ih =>
    simp only [List.map_cons, List.flatten_cons, List.filter_cons]
    rw [wordsOf_no_ws t (h t (List.mem_cons_self t l)),
      ih (fun t' ht' c hct => h t' (List.mem_cons_of_mem t ht') c hct)]
    cases t <;> simp

theorem flatten_map_wordsOf_splitWs (cs : List Char) :
    ((splitWs cs).map wordsOf).flatten = wordsOf cs := by
  show ((splitWsGo cs (some [])).map wordsOf).flatten = wordsOf cs
  rw [flatten_map_wordsOf _ (splitWsGo_not_ws cs (some []) (by simp))]
  rfl

theorem wrapWords_nil (wf : PFont → List Char → ℚ → ℚ) (font : PFont) (size mw : ℚ)
    (cur : List Char) :
    wrapWords wf font size mw [] cur = if cur.isEmpty then [] else [cur] := rfl

theorem wrapWords_cons (wf : PFont → List Char → ℚ → ℚ) (font : PFont) (size mw : ℚ)
    (w : List Char) (ws : List (List Char)) (cur : List Char) :
    wrapWords wf font size mw (w :: ws) cur =
      if wf font (if cur.isEmpty then w else cur ++ ' ' :: w) size ≤ mw then
        wrapWords wf font size mw ws (if cur.isEmpty then w else cur ++ ' ' :: w)
      else cur :: wrapWords wf font size mw ws w := rfl

theorem wrapWords_wordsOf (wf : PFont → List Char → ℚ → ℚ) (font : PFont)
    (size mw : ℚ) : ∀ (ws : List (List Char)) (cur : List Char),
    ((wrapWords wf font size mw ws cur).map wordsOf).flatten
      = wordsOf cur ++ (ws.map wordsOf).flatten := by
  intro ws
  induction ws with
  | nil =>
    intro cur
    rw [wrapWords_nil]
    by_cases hcur : cur.isEmpty
    · have hc : cur = [] := by simpa using hcur
      subst hc
      simp [wordsOf_nil]
    · simp [hcur]
  | cons w ws ih =>
    intro cur
    rw [wrapWords_cons]
    by_cases hcur : cur.isEmpty
    · have hc : cur = [] := by simpa using hcur
      subst hc
      simp only [List.isEmpty_nil, if_true]
      split
      all_goals simp only [List.map_cons, List.flatten_cons]
      all_goals rw [ih w]
      all_goals simp [wordsOf_nil]
    · have hne : cur.isEmpty = false := by
        revert hcur; cases cur.isEmpty <;> simp
      simp only [hne, Bool.false_eq_true, if_false]
      split
      · rw [ih (cur ++ ' ' :: w), wordsOf_append_ws cur w ' ' (by decide)]
        simp
      · simp only [List.map_cons, List.flatten_cons]
        rw [ih w]

theorem linesOfPara_wordsOf (wf : PFont → List Char → ℚ → ℚ) (para : List Char) :
    ((linesOfPara wf para).map wordsOf).flatten = wordsOf para := by
  unfold linesOfPara
  rw [wrapWords_wordsOf, flatten_map_wordsOf_splitWs]
  simp [wordsOf_nil]

theorem wrapWords_head_ext (wf : PFont → List Char → ℚ → ℚ) (font : PFont)
    (size mw : ℚ) : ∀ (ws : List (List Char)) (cur : List Char), cur ≠ [] →
    ∃ ext rest, wrapWords wf font size mw ws cur = (cur ++ ext) :: rest := by
  intro ws
  induction ws with
  | nil =>
    intro cur hcur
    have hne : cur.isEmpty = false := by simpa using hcur
    rw [wrapWords_nil]
    exact ⟨[], [], by simp [hne]⟩
  | cons w ws ih =>
    intro cur hcur
    have hne : cur.isEmpty = false := by simpa using hcur
    rw [wrapWords_cons]
    simp only [hne, Bool.false_eq_true, if_false]
    by_cases hfit : wf font (cur ++ ' ' :: w) size ≤ mw
    · rw [if_pos hfit]
      obtain ⟨ext, rest, hwr⟩ := ih (cur ++ ' ' :: w) (by simp)
      exact ⟨' ' :: w ++ ext, rest, by rw [hwr]; simp⟩
    · rw [if_neg hfit]
      exact ⟨[], wrapWords wf font size mw ws w, by simp⟩

theorem wrapWords_ne_nil (wf : PFont → List Char → ℚ → ℚ) (font : PFont)
    (size mw : ℚ) (ws : List (List Char)) (cur : List Char) (hcur : cur ≠ []) :
    wrapWords wf font size mw ws cur ≠ [] := by
  obtain ⟨ext, rest, h⟩ := wrapWords_head_ext wf font size mw ws cur hcur
  rw [h]
  exact List.cons_ne_nil _ _

theorem wrapWords_width (wf : PFont → List Char → ℚ → ℚ) (font : PFont)
    (size mw : ℚ) (S : List (List Char)) :
    ∀ (ws : List (List Char)) (cur : List Char),
    (∀ w ∈ ws, w ∈ S) →
    (wf font cur size ≤ mw ∨ cur ∈ S) →
    ∀ line ∈ wrapWords wf font size mw ws cur,
      wf font line size ≤ mw ∨ line ∈ S := by
  intro ws
  induction ws with
  | nil =>
    intro cur _ hcur line hline
    rw [wrapWords_nil] at hline
    by_cases hc : cur.isEmpty
    · rw [if_pos hc] at hline
      simp at hline
    · rw [if_neg hc] at hline
      have h := List.mem_singleton.mp hline
      subst h
      exact hcur
  | cons w ws ih =>
    intro cur hws hcur line hline
    rw [wrapWords_cons] at hline
    have hwS : w ∈ S := hws w (List.mem_cons_self w ws)
    have hws2 : ∀ v ∈ ws, v ∈ S := fun v hv => hws v (List.mem_cons_of_mem w hv)
    set t := if cur.isEmpty then w else cur ++ ' ' :: w with ht
    by_cases hfit : wf font t size ≤ mw
    · rw [if_pos hfit] at hline
      refine ih t hws2 (Or.inl hfit) line hline
    · rw [if_neg hfit] at hline
      rcases List.mem_cons.mp hline with h | h
      · subst h
        exact hcur
      · exact ih w hws2 (Or.inr hwS) line h
/-! ### Lemmas about the layout state machine -/

theorem allRuns_draw (st : LState) (text : List Char) (size : ℚ) (font : PFont) :
    allRuns (draw st text size font)
      = allRuns st ++ [⟨text, 50, st.y, size, font, (0, 0, 0)⟩] := by
  simp [allRuns, draw]

theorem allRuns_newPage (st : LState) : allRuns (newPage st) = allRuns st := by
  simp [allRuns, newPage]

theorem allRuns_set_y (st : LState) (y : ℚ) :
    allRuns { st with y := y } = allRuns st := rfl

theorem placeLine_allRuns (size : ℚ) (font : PFont) (st : LState) (line : List Char) :
    allRuns (placeLine size font st line)
      = allRuns st ++ [⟨line, 50, st.y, size, font, (0, 0, 0)⟩] := by
  unfold placeLine
  dsimp only
  split
  · simp [allRuns, newPage, draw]
  · simp [allRuns, draw]

theorem placeLine_eq (size : ℚ) (font : PFont) (st : LState) (line : List Char) :
    placeLine size font st line =
      if st.y - 12 * 1.5 < 50 then
        ⟨st.prev ++ [st.cur ++ [lineRun line st.y size font]], [], 792 - 50 - 12⟩
      else ⟨st.prev, st.cur ++ [lineRun line st.y size font], st.y - 12 * 1.5⟩ := by
  rfl

theorem foldl_placeLine_texts (size : ℚ) (font : PFont) :
    ∀ (lines : List (List Char)) (st : LState),
    (allRuns (lines.foldl (placeLine size font) st)).map TextRun.text
      = (allRuns st).map TextRun.text ++ lines := by
  intro lines
  induction lines with
  | nil => intro st; simp
  | cons l ls ih =>
    intro st
    rw [List.foldl_cons, ih, placeLine_allRuns]
    simp

theorem foldl_placeLine_prev_ext (size : ℚ) (font : PFont) :
    ∀ (lines : List (List Char)) (st : LState),
    ∃ tail, (lines.foldl (placeLine size font) st).prev = st.prev ++ tail := by
  intro lines
  induction lines with
  | nil => intro st; exact ⟨[], by simp⟩
  | cons l ls ih =>
    intro st
    obtain ⟨tail, htail⟩ := ih (placeLine size font st l)
    by_cases hred : st.y - 12 * 1.5 < 50
    · refine ⟨[st.cur ++ [lineRun l st.y size font]] ++ tail, ?_⟩
      rw [List.foldl_cons, htail, placeLine_eq, if_pos hred]
      simp
    · refine ⟨tail, ?_⟩
      rw [List.foldl_cons, htail, placeLine_eq, if_neg hred]

theorem foldl_placeLine_allRuns_ext (size : ℚ) (font : PFont) :
    ∀ (lines : List (List Char)) (st : LState),
    ∃ more, allRuns (lines.foldl (placeLine size font) st) = allRuns st ++ more := by
  intro lines
  induction lines with
  | nil => intro st; exact ⟨[], by simp⟩
  | cons l ls ih =>
    intro st
    obtain ⟨more, hmore⟩ := ih (placeLine size font st l)
    refine ⟨[⟨l, 50, st.y, size, font, (0, 0, 0)⟩] ++ more, ?_⟩
    rw [List.foldl_cons, hmore, placeLine_allRuns]
    simp

theorem foldl_placeLine_pages (size : ℚ) (font : PFont) :
    ∀ (lines : List (List Char)) (st : LState),
    ∃ ext rest, pagesOf (lines.foldl (placeLine size font) st)
      = st.prev ++ (st.cur ++ ext) :: rest := by
  intro lines
  induction lines with
  | nil => intro st; exact ⟨[], [], by simp [pagesOf]⟩
  | cons l ls ih =>
    intro st
    by_cases hred : st.y - 12 * 1.5 < 50
    · obtain ⟨ext, rest, h⟩ :=
        ih ⟨st.prev ++ [st.cur ++ [lineRun l st.y size font]], [], 792 - 50 - 12⟩
      refine ⟨[lineRun l st.y size font], ([] ++ ext) :: rest, ?_⟩
      rw [List.foldl_cons, placeLine_eq, if_pos hred, h]
      simp
    · obtain ⟨ext, rest, h⟩ :=
        ih ⟨st.prev, st.cur ++ [lineRun l st.y size font], st.y - 12 * 1.5⟩
      refine ⟨[lineRun l st.y size font] ++ ext, rest, ?_⟩
      rw [List.foldl_cons, placeLine_eq, if_neg hred, h]
      simp

theorem foldl_placeLine_noreset (size : ℚ) (font : PFont) :
    ∀ (lines : List (List Char)) (st : LState),
    50 ≤ st.y - (lines.length : ℚ) * (12 * 1.5) →
    lines.foldl (placeLine size font) st
      = ⟨st.prev, st.cur ++ runsFrom size font st.y lines,
          st.y - (lines.length : ℚ) * (12 * 1.5)⟩ := by
  intro lines
  induction lines with
  | nil =>
    intro st _
    simp [runsFrom]
  | cons l ls ih =>
    intro st hy
    have hlen : ((l :: ls).length : ℚ) = (ls.length : ℚ) + 1 := by
      push_cast [List.length_cons]; ring
    have hstep : ¬ st.y - 12 * 1.5 < 50 := by
      rw [hlen] at hy
      have h0 : (0 : ℚ) ≤ (ls.length : ℚ) := Nat.cast_nonneg _
      nlinarith
    rw [List.foldl_cons, placeLine_eq, if_neg hstep,
      ih ⟨st.prev, st.cur ++ [lineRun l st.y size font], st.y - 12 * 1.5⟩ (by
        dsimp only
        rw [hlen] at hy
        linarith)]
    rw [hlen]
    simp only [runsFrom, LState.mk.injEq]
    refine ⟨trivial, ?_, ?_⟩
    · simp
    · ring

theorem foldl_placeLine_fresh (size : ℚ) (font : PFont) :
    ∀ (lines : List (List Char)) (st : LState) (k : ℕ),
    k ≤ 37 → st.y = 730 - (k : ℚ) * (12 * 1.5) → 38 - k < lines.length →
    lines.foldl (placeLine size font) st
      = (lines.drop (38 - k)).foldl (placeLine size font)
          ⟨st.prev ++ [st.cur ++ runsFrom size font st.y (lines.take (38 - k))],
            [], 792 - 50 - 12⟩ := by
  intro lines
  induction lines with
  | nil =>
    intro st k _ _ hlt
    simp at hlt
  | cons l ls ih =>
    intro st k hk hy hlt
    by_cases hk37 : k = 37
    · subst hk37
      have hred : st.y - 12 * 1.5 < 50 := by rw [hy]; norm_num
      rw [List.foldl_cons, placeLine_eq, if_pos hred]
      have h1 : (38 : ℕ) - 37 = 1 := by norm_num
      rw [h1]
      simp [runsFrom, hy]
    · have hk36 : k ≤ 36 := by omega
      have hkq : (k : ℚ) ≤ 36 := by exact_mod_cast hk36
      have hred : ¬ st.y - 12 * 1.5 < 50 := by rw [hy]; nlinarith
      have hsub : 38 - k = (38 - (k + 1)) + 1 := by omega
      rw [List.foldl_cons, placeLine_eq, if_neg hred]
      rw [ih ⟨st.prev, st.cur ++ [lineRun l st.y size font], st.y - 12 * 1.5⟩ (k + 1)
        (by omega)
        (by dsimp only; rw [hy]; push_cast; ring)
        (by simp only [List.length_cons] at hlt ⊢; omega)]
      rw [hsub]
      simp only [List.drop_succ_cons, List.take_succ_cons]
      congr 1
      simp [runsFrom]
      
theorem foldl_placeLine_y_runs (size : ℚ) (font : PFont) :
    ∀ (lines : List (List Char)) (st : LState),
    50 ≤ st.y → (∀ r ∈ allRuns st, 50 ≤ r.y) →
    (∀ r ∈ allRuns (lines.foldl (placeLine size font) st), 50 ≤ r.y)
      ∧ 50 ≤ (lines.foldl (placeLine size font) st).y := by
  intro lines
  induction lines with
  | nil => intro st hy hr; exact ⟨hr, hy⟩
  | cons l ls ih =>
    intro st hy hr
    rw [List.foldl_cons]
    refine ih (placeLine size font st l) ?_ ?_
    · rw [placeLine_eq]
      by_cases hred : st.y - 12 * 1.5 < 50
      · rw [if_pos hred]; norm_num
      · rw [if_neg hred]; dsimp only; linarith [not_lt.mp hred]
    · intro r hmem
      rw [placeLine_allRuns] at hmem
      rcases List.mem_append.mp hmem with h | h
      · exact hr r h
      · have := List.mem_singleton.mp h
        subst this
        exact hy

theorem foldl_placeLine_y_le (size : ℚ) (font : PFont) :
    ∀ (lines : List (List Char)) (st : LState), st.y ≤ 730 →
    (lines.foldl (placeLine size font) st).y ≤ 730 := by
  intro lines
  induction lines with
  | nil => intro st h; exact h
  | cons l ls ih =>
    intro st h
    rw [List.foldl_cons]
    refine ih (placeLine size font st l) ?_
    rw [placeLine_eq]
    by_cases hred : st.y - 12 * 1.5 < 50
    · rw [if_pos hred]; norm_num
    · rw [if_neg hred]; dsimp only; linarith

theorem placePara_blank (wf : PFont → List Char → ℚ → ℚ) (st : LState)
    (para : List Char) (h : (trim para).isEmpty = true) :
    placePara wf st para = st := by
  unfold placePara
  rw [if_pos h]

theorem placePara_eq (wf : PFont → List Char → ℚ → ℚ) (st : LState)
    (para : List Char) (h : (trim para).isEmpty = false) :
    placePara wf st para =
      (let lines := linesOfPara wf para
       let st1 := if st.y - (lines.length : ℚ) * (12 * 1.5) < 50 then newPage st else st
       let st2 := lines.foldl (placeLine (sizeOf para) (fontOf para)) st1
       ⟨st2.prev, st2.cur, st2.y - 12⟩) := by
  unfold placePara
  rw [if_neg (by simp [h])]

theorem pagesOf_mk (p : List (List TextRun)) (c : List TextRun) (y : ℚ) :
    pagesOf ⟨p, c, y⟩ = p ++ [c] := rfl

theorem allRuns_mk (p : List (List TextRun)) (c : List TextRun) (y : ℚ) :
    allRuns ⟨p, c, y⟩ = p.flatten ++ c := rfl

theorem allRuns_fields (st : LState) (y : ℚ) :
    allRuns ⟨st.prev, st.cur, y⟩ = allRuns st := rfl

theorem pagesOf_fields (st : LState) (y : ℚ) :
    pagesOf ⟨st.prev, st.cur, y⟩ = pagesOf st := rfl

theorem placePara_pages (wf : PFont → List Char → ℚ → ℚ) (st : LState)
    (para : List Char) :
    ∃ ext rest, pagesOf (placePara wf st para) = st.prev ++ (st.cur ++ ext) :: rest := by
  by_cases hb : (trim para).isEmpty
  · rw [placePara_blank wf st para hb]
    exact ⟨[], [], by simp [pagesOf]⟩
  · rw [placePara_eq wf st para (by simpa using hb)]
    dsimp only
    by_cases hpre : st.y - ((linesOfPara wf para).length : ℚ) * (12 * 1.5) < 50
    · rw [if_pos hpre]
      obtain ⟨ext, rest, h⟩ := foldl_placeLine_pages (sizeOf para) (fontOf para)
        (linesOfPara wf para) (newPage st)
      refine ⟨[], ([] ++ ext) :: rest, ?_⟩
      rw [pagesOf_mk]
      have : pagesOf ((linesOfPara wf para).foldl (placeLine (sizeOf para) (fontOf para))
          (newPage st)) = _ := h
      rw [pagesOf] at this
      rw [this]
      simp [newPage]
    · rw [if_neg hpre]
      obtain ⟨ext, rest, h⟩ := foldl_placeLine_pages (sizeOf para) (fontOf para)
        (linesOfPara wf para) st
      refine ⟨ext, rest, ?_⟩
      rw [pagesOf_mk]
      rw [pagesOf] at h
      exact h

theorem pages_glue {st' st2 : LState} {B : List (List TextRun)} {x : List TextRun}
    {e : List TextRun} {r : List (List TextRun)}
    (h : pagesOf st' = B ++ (x ++ e) :: r)
    (h2 : ∃ e2 r2, pagesOf st2 = st'.prev ++ (st'.cur ++ e2) :: r2) :
    ∃ e3 r3, pagesOf st2 = B ++ (x ++ e3) :: r3 := by
  obtain ⟨e2, r2, h2⟩ := h2
  rcases List.eq_nil_or_concat r with hr | ⟨r1, last, hr⟩
  · subst hr
    have hlen : st'.prev.length = B.length := by
      have hl := congrArg List.length h
      simp [pagesOf] at hl
      omega
    obtain ⟨hp, hc⟩ := List.append_inj (by simpa [pagesOf] using h) hlen
    have hc2 : st'.cur = x ++ e := by simpa using hc
    refine ⟨e ++ e2, r2, ?_⟩
    rw [h2, hp, hc2]
    simp
  · subst hr
    have hshape : pagesOf st' = (B ++ (x ++ e) :: r1) ++ [last] := by
      rw [h]
      simp
    have hlen : st'.prev.length = (B ++ (x ++ e) :: r1).length := by
      have hl := congrArg List.length hshape
      simp [pagesOf] at hl
      simp only [List.length_append, List.length_cons]
      omega
    obtain ⟨hp, hc⟩ := List.append_inj (by simpa [pagesOf] using hshape) hlen
    have hc2 : st'.cur = last := by simpa using hc
    refine ⟨e, r1 ++ (last ++ e2) :: r2, ?_⟩
    rw [h2, hp, hc2]
    simp

theorem foldl_placePara_pages (wf : PFont → List Char → ℚ → ℚ) :
    ∀ (paras : List (List Char)) (st : LState),
    ∃ ext rest, pagesOf (paras.foldl (placePara wf) st)
      = st.prev ++ (st.cur ++ ext) :: rest := by
  intro paras
  induction paras with
  | nil => intro st; exact ⟨[], [], by simp [pagesOf]⟩
  | cons p ps ih =>
    intro st
    obtain ⟨e, r, h1⟩ := placePara_pages wf st p
    rw [List.foldl_cons]
    exact pages_glue h1 (ih (placePara wf st p))

theorem placePara_prev_ext (wf : PFont → List Char → ℚ → ℚ) (st : LState)
    (para : List Char) :
    ∃ tail, (placePara wf st para).prev = st.prev ++ tail := by
  by_cases hb : (trim para).isEmpty
  · rw [placePara_blank wf st para hb]
    exact ⟨[], by simp⟩
  · rw [placePara_eq wf st para (by simpa using hb)]
    dsimp only
    by_cases hpre : st.y - ((linesOfPara wf para).length : ℚ) * (12 * 1.5) < 50
    · rw [if_pos hpre]
      obtain ⟨tail, h⟩ := foldl_placeLine_prev_ext (sizeOf para) (fontOf para)
        (linesOfPara wf para) (newPage st)
      refine ⟨[st.cur] ++ tail, ?_⟩
      dsimp only
      rw [h]
      simp [newPage]
    · rw [if_neg hpre]
      obtain ⟨tail, h⟩ := foldl_placeLine_prev_ext (sizeOf para) (fontOf para)
        (linesOfPara wf para) st
      exact ⟨tail, h⟩

theorem foldl_placePara_prev_ext (wf : PFont → List Char → ℚ → ℚ) :
    ∀ (paras : List (List Char)) (st : LState),
    ∃ tail, (paras.foldl (placePara wf) st).prev = st.prev ++ tail := by
  intro paras
  induction paras with
  | nil => intro st; exact ⟨[], by simp⟩
  | cons p ps ih =>
    intro st
    obtain ⟨t1, h1⟩ := placePara_prev_ext wf st p
    obtain ⟨t2, h2⟩ := ih (placePara wf st p)
    rw [List.foldl_cons]
    exact ⟨t1 ++ t2, by rw [h2, h1]; simp⟩

theorem placePara_y_le (wf : PFont → List Char → ℚ → ℚ) (st : LState)
    (para : List Char) (h : st.y ≤ 730) : (placePara wf st para).y ≤ 730 := by
  by_cases hb : (trim para).isEmpty
  · rw [placePara_blank wf st para hb]; exact h
  · rw [placePara_eq wf st para (by simpa using hb)]
    dsimp only
    have h1 : (if st.y - ((linesOfPara wf para).length : ℚ) * (12 * 1.5) < 50
        then newPage st else st).y ≤ 730 := by
      split
      · norm_num [newPage]
      · exact h
    have h2 := foldl_placeLine_y_le (sizeOf para) (fontOf para) (linesOfPara wf para) _ h1
    linarith

theorem foldl_placePara_y_le (wf : PFont → List Char → ℚ → ℚ) :
    ∀ (paras : List (List Char)) (st : LState), st.y ≤ 730 →
    (paras.foldl (placePara wf) st).y ≤ 730 := by
  intro paras
  induction paras with
  | nil => intro st h; exact h
  | cons p ps ih =>
    intro st h
    rw [List.foldl_cons]
    exact ih (placePara wf st p) (placePara_y_le wf st p h)

theorem placePara_runs_ge (wf : PFont → List Char → ℚ → ℚ) (st : LState)
    (para : List Char) (hr : ∀ r ∈ allRuns st, 50 ≤ r.y) :
    ∀ r ∈ allRuns (placePara wf st para), 50 ≤ r.y := by
  by_cases hb : (trim para).isEmpty
  · rw [placePara_blank wf st para hb]; exact hr
  · rw [placePara_eq wf st para (by simpa using hb)]
    dsimp only
    intro r hmem
    rw [allRuns_fields] at hmem
    refine (foldl_placeLine_y_runs (sizeOf para) (fontOf para) (linesOfPara wf para) _
      ?_ ?_).1 r hmem
    · split
      · norm_num [newPage]
      · have hn : (0 : ℚ) ≤ ((linesOfPara wf para).length : ℚ) * (12 * 1.5) := by
          positivity
        rename_i hpre
        push_neg at hpre
        linarith
    · intro r2 h2
      split at h2
      · rw [allRuns_newPage] at h2
        exact hr r2 h2
      · exact hr r2 h2

theorem foldl_placePara_runs_ge (wf : PFont → List Char → ℚ → ℚ) :
    ∀ (paras : List (List Char)) (st : LState),
    (∀ r ∈ allRuns st, 50 ≤ r.y) →
    ∀ r ∈ allRuns (paras.foldl (placePara wf) st), 50 ≤ r.y := by
  intro paras
  induction paras with
  | nil => intro st h; exact h
  | cons p ps ih =>
    intro st h
    rw [List.foldl_cons]
    exact ih (placePara wf st p) (placePara_runs_ge wf st p h)

theorem placePara_texts (wf : PFont → List Char → ℚ → ℚ) (st : LState)
    (para : List Char) :
    (allRuns (placePara wf st para)).map TextRun.text
      = (allRuns st).map TextRun.text
        ++ (if (trim para).isEmpty then [] else linesOfPara wf para) := by
  by_cases hb : (trim para).isEmpty
  · rw [placePara_blank wf st para hb, if_pos hb]
    simp
  · rw [placePara_eq wf st para (by simpa using hb), if_neg hb]
    dsimp only
    rw [allRuns_fields, foldl_placeLine_texts]
    split
    · rw [allRuns_newPage]
    · rfl

theorem foldl_placePara_texts (wf : PFont → List Char → ℚ → ℚ) :
    ∀ (paras : List (List Char)) (st : LState),
    (allRuns (paras.foldl (placePara wf) st)).map TextRun.text
      = (allRuns st).map TextRun.text
        ++ (paras.map (fun p => if (trim p).isEmpty then []
            else linesOfPara wf p)).flatten := by
  intro paras
  induction paras with
  | nil => intro st; simp
  | cons p ps ih =>
    intro st
    rw [List.foldl_cons, ih (placePara wf st p), placePara_texts]
    simp

theorem addFooters_length (n : ℕ) :
    ∀ (i : ℕ) (ps : List (List TextRun)), (addFooters n i ps).length = ps.length := by
  intro i ps
  induction ps generalizing i with
  | nil => rfl
  | cons p ps ih => simp [addFooters, ih]

theorem addFooters_getElem? (n : ℕ) :
    ∀ (ps : List (List TextRun)) (i j : ℕ),
    (addFooters n i ps)[j]? = (ps[j]?).map (fun p => p ++ [footerRun (i + j) n]) := by
  intro ps
  induction ps with
  | nil => intro i j; simp [addFooters]
  | cons p ps ih =>
    intro i j
    cases j with
    | zero => simp [addFooters]
    | succ j =>
      simp only [addFooters, List.getElem?_cons_succ, ih (i + 1) j]
      have : i + 1 + j = i + (j + 1) := by omega
      rw [this]

theorem addFooters_dropLast (n : ℕ) :
    ∀ (i : ℕ) (ps : List (List TextRun)),
    ((addFooters n i ps).map List.dropLast).flatten = ps.flatten := by
  intro i ps
  induction ps generalizing i with
  | nil => rfl
  | cons p ps ih =>
    simp only [addFooters, List.map_cons, List.flatten_cons, ih (i + 1),
      List.dropLast_concat]


theorem convertTextToPdf_eq (wf : PFont → List Char → ℚ → ℚ)
    (path text : List Char) :
    convertTextToPdf wf path text =
      addFooters (pagesOf ((splitParas text).foldl (placePara wf) (titleState path))).length
        0 (pagesOf ((splitParas text).foldl (placePara wf) (titleState path))) := rfl

theorem allRuns_titleState (path : List Char) :
    allRuns (titleState path)
      = [⟨titleOf path, 50, 792 - 50 - 18, 18, .bold, (0, 0, 0)⟩] := rfl

/-! ### Claim theorems -/

/-- C6 (counterexample): the claim classifies a paragraph as a heading only
when **its length** is < 80; the code tests the **trimmed** length.  This
82-character paragraph (80 spaces then `"A:"`) is classified as a heading by
the code although its length is not < 80, refuting the claimed
biconditional. -/
theorem C6_heading_counterexample :
    isHeading (List.replicate 80 ' ' ++ ['A', ':']) = true ∧
      ¬ (List.replicate 80 ' ' ++ ['A', ':']).length < 80 := by
  constructor
  · decide
  · decide

/-- C6 (amended): a paragraph is a heading iff its **trimmed** length is
< 80 and (it ends with ':', or contains no '.', or equals its own
uppercasing); `"Introduction:"` and `"SUMMARY"` are headings, a normal
sentence with a period is not, and any paragraph whose trimmed length is
at least 80 (in particular a plain 120-character paragraph ending in ':')
is not a heading. -/
theorem C6_heading_rule :
    (∀ p : List Char, isHeading p = true ↔
      ((trim p).length < 80 ∧ (p.getLast? = some ':' ∨ p.contains '.' = false ∨
        p.map Char.toUpper = p))) ∧
    isHeading ("Introduction:".data) = true ∧
    isHeading ("SUMMARY".data) = true ∧
    isHeading ("This is a normal sentence with a period.".data) = false ∧
    (∀ p : List Char, 80 ≤ (trim p).length → isHeading p = false) := by
  refine ⟨?_, by decide, by decide, by decide, ?_⟩
  · intro p
    simp [isHeading, Bool.and_eq_true, Bool.or_eq_true, Bool.not_eq_true']
    tauto
  · intro p hp
    have h1 : decide ((trim p).length < 80) = false := by
      simp
      omega
    simp [isHeading, h1]

theorem C6_heading_rule_witness :
    isHeading (' ' :: (List.replicate 119 'a' ++ [':'])) = false :=
  C6_heading_rule.2.2.2.2 (' ' :: (List.replicate 119 'a' ++ [':'])) (by decide)

/-- C7: under the spec's checked layout contract (spec-modelled: the
route's code hardcodes valid default geometry and has no validation path),
malformed geometry is rejected with the configuration error before any
layout output is produced, and under valid geometry the engine returns its
pages — no other error kind exists (`LayoutError` has a single
constructor). -/
theorem C7_configuration_error (wf : PFont → List Char → ℚ → ℚ)
    (g : PageGeometry) (path text : List Char) :
    (validGeometry g = false →
      layoutChecked wf g path text = .error .configurationError) ∧
    (validGeometry g = true →
      layoutChecked wf g path text = .ok (convertTextToPdf wf path text)) := by
  constructor
  · intro h
    simp [layoutChecked, h]
  · intro h
    simp [layoutChecked, h]

unseal Rat.add Rat.sub Rat.mul Rat.inv Rat.ofScientific in
theorem C7_configuration_error_witness :
    layoutChecked cw ⟨612, 792, 0, 12, 12 * 1.2, 18, 1.5, 10⟩
        "doc.txt".data "".data = .error .configurationError ∧
    layoutChecked cw defaultGeometry "doc.txt".data "".data
      = .ok (convertTextToPdf cw "doc.txt".data "".data) :=
  ⟨(C7_configuration_error cw ⟨612, 792, 0, 12, 12 * 1.2, 18, 1.5, 10⟩
      "doc.txt".data "".data).1 (by decide),
   (C7_configuration_error cw defaultGeometry "doc.txt".data "".data).2 (by decide)⟩

/-- C5: every page `i` (0-based) of the engine's output ends with the
footer run `"Page (i+1) of N"` drawn at `(margin, margin / 2)` in size 10
gray regular type, where `N` is the true total page count of the output —
footers are stamped in a separate pass over the completed page list, so
`N` is accurate on every page for every input. -/
theorem C5_footer_accuracy (wf : PFont → List Char → ℚ → ℚ)
    (path text : List Char) (i : ℕ) (page : List TextRun)
    (h : (convertTextToPdf wf path text)[i]? = some page) :
    page.getLast? = some ⟨footerText (i + 1) (convertTextToPdf wf path text).length,
      50, 50 / 2, 10, .regular, (0.5, 0.5, 0.5)⟩ := by
  rw [convertTextToPdf_eq] at h
  rw [addFooters_getElem?] at h
  obtain ⟨p0, hp0, hf⟩ := Option.map_eq_some'.mp h
  subst hf
  rw [List.getLast?_concat, convertTextToPdf_eq, addFooters_length]
  simp [footerRun]

unseal Rat.add Rat.sub Rat.mul Rat.inv Rat.ofScientific in
theorem C5_footer_accuracy_witness :
    ([⟨titleOf "doc.txt".data, 50, 792 - 50 - 18, 18, PFont.bold, (0, 0, 0)⟩,
      footerRun 0 1] : List TextRun).getLast?
      = some ⟨footerText (0 + 1) (convertTextToPdf cw "doc.txt".data "".data).length,
          50, 50 / 2, 10, .regular, (0.5, 0.5, 0.5)⟩ :=
  C5_footer_accuracy cw "doc.txt".data "".data 0
    [⟨titleOf "doc.txt".data, 50, 792 - 50 - 18, 18, PFont.bold, (0, 0, 0)⟩,
      footerRun 0 1] (by decide)

/-- C4: every wrapped line of a paragraph has rendered width (at the
paragraph's assigned font and size) at most `pageWidth - 2*margin`, except
lines consisting of a single overlong word: such a line is exactly one
whitespace-free token of the paragraph, placed alone and never split.
(`h0`: the external font measures the empty string within the usable
width, as every real font with width 0 for the empty string does.) -/
theorem C4_line_width_bound (wf : PFont → List Char → ℚ → ℚ) (para : List Char)
    (h0 : wf (fontOf para) [] (sizeOf para) ≤ 612 - 50 * 2) :
    ∀ line ∈ linesOfPara wf para,
      wf (fontOf para) line (sizeOf para) ≤ 612 - 50 * 2 ∨
        (612 - 50 * 2 < wf (fontOf para) line (sizeOf para) ∧
          line ∈ splitWs para ∧ ∀ c ∈ line, isWS c = false) := by
  intro line hline
  have base := wrapWords_width wf (fontOf para) (sizeOf para) (612 - 50 * 2)
    (splitWs para) (splitWs para) [] (fun w hw => hw) (Or.inl h0) line hline
  by_cases hle : wf (fontOf para) line (sizeOf para) ≤ 612 - 50 * 2
  · exact Or.inl hle
  · rcases base with h | h
    · exact absurd h hle
    · exact Or.inr ⟨not_le.mp hle, h,
        splitWsGo_not_ws para (some []) (by simp) line h⟩

unseal Rat.add Rat.sub Rat.mul Rat.inv Rat.ofScientific in
theorem C4_line_width_bound_witness :
    cw (fontOf "x aaa".data) "aaa".data (sizeOf "x aaa".data) ≤ 612 - 50 * 2 ∨
      (612 - 50 * 2 < cw (fontOf "x aaa".data) "aaa".data (sizeOf "x aaa".data) ∧
        "aaa".data ∈ splitWs "x aaa".data ∧ ∀ c ∈ "aaa".data, isWS c = false) :=
  C4_line_width_bound cw "x aaa".data (by decide) "aaa".data (by decide)

/-- C8: invariant of the whole layout pass: every text run the engine draws
during layout (the title and every wrapped line — everything except the
footer stamped at `margin / 2` by the separate footer pass) sits at a
vertical position of at least the bottom margin, `50`; whenever a line
would not fit, the engine has already moved to a fresh page (with the
cursor reset to `height - margin - fontSize`) before drawing it. -/
theorem C8_no_draw_below_margin (wf : PFont → List Char → ℚ → ℚ)
    (path text : List Char) :
    ∀ r ∈ ((convertTextToPdf wf path text).map List.dropLast).flatten, 50 ≤ r.y := by
  intro r hr
  rw [convertTextToPdf_eq, addFooters_dropLast] at hr
  have hflat : (pagesOf ((splitParas text).foldl (placePara wf) (titleState path))).flatten
      = allRuns ((splitParas text).foldl (placePara wf) (titleState path)) := by
    simp [pagesOf, allRuns]
  rw [hflat] at hr
  refine foldl_placePara_runs_ge wf (splitParas text) (titleState path) ?_ r hr
  intro r2 h2
  rw [allRuns_titleState] at h2
  have h3 := List.mem_singleton.mp h2
  subst h3
  norm_num

unseal Rat.add Rat.sub Rat.mul Rat.inv Rat.ofScientific in
theorem C8_no_draw_below_margin_witness :
    (50 : ℚ) ≤ (⟨titleOf "doc.txt".data, 50, 792 - 50 - 18, 18,
      PFont.bold, (0, 0, 0)⟩ : TextRun).y :=
  C8_no_draw_below_margin cw "doc.txt".data "".data
    ⟨titleOf "doc.txt".data, 50, 792 - 50 - 18, 18, PFont.bold, (0, 0, 0)⟩
    (by decide)

theorem body_lines_words (wf : PFont → List Char → ℚ → ℚ) :
    ∀ (paras : List (List Char)),
    ((((paras.map (fun p => if (trim p).isEmpty then []
        else linesOfPara wf p)).flatten).map wordsOf).flatten)
      = ((paras.filter (fun p => !(trim p).isEmpty)).map wordsOf).flatten := by
  intro paras
  induction paras with
  | nil => rfl
  | cons p ps ih =>
    simp only [List.map_cons, List.flatten_cons, List.filter_cons, List.map_append,
      List.flatten_append, ih]
    by_cases hb : (trim p).isEmpty
    · simp [hb]
    · have hb2 : (trim p).isEmpty = false := by
        revert hb; cases (trim p).isEmpty <;> simp
      simp only [hb2, Bool.false_eq_true, if_false, Bool.not_false, List.filter_cons_of_pos,
        List.map_cons, List.flatten_cons, List.map_append, List.flatten_append]
      rw [linesOfPara_wordsOf]
      simp

/-- C3: reading the emitted body lines in order (all pages, footers and the
title excluded) and splitting them back into whitespace-separated words
yields exactly the words of the input's non-blank paragraphs in original
order: no word is dropped, duplicated, reordered, or split across lines. -/
theorem C3_word_preservation (wf : PFont → List Char → ℚ → ℚ)
    (path text : List Char) :
    (((((convertTextToPdf wf path text).map List.dropLast).flatten.map
        TextRun.text).drop 1).map wordsOf).flatten
      = (((splitParas text).filter
          (fun p => !(trim p).isEmpty)).map wordsOf).flatten := by
  rw [convertTextToPdf_eq, addFooters_dropLast]
  have hflat : (pagesOf ((splitParas text).foldl (placePara wf) (titleState path))).flatten
      = allRuns ((splitParas text).foldl (placePara wf) (titleState path)) := by
    simp [pagesOf, allRuns]
  rw [hflat, foldl_placePara_texts, allRuns_titleState]
  rw [show ((([⟨titleOf path, 50, 792 - 50 - 18, 18, PFont.bold,
      (0, 0, 0)⟩] : List TextRun).map TextRun.text)
        ++ ((splitParas text).map (fun p => if (trim p).isEmpty then []
            else linesOfPara wf p)).flatten).drop 1
      = ((splitParas text).map (fun p => if (trim p).isEmpty then []
          else linesOfPara wf p)).flatten from by simp]
  exact body_lines_words wf (splitParas text)

theorem runsFrom_texts (size : ℚ) (font : PFont) :
    ∀ (ls : List (List Char)) (y : ℚ),
    (runsFrom size font y ls).map TextRun.text = ls := by
  intro ls
  induction ls with
  | nil => intro y; rfl
  | cons l ls ih => intro y; simp [runsFrom, lineRun, ih]

theorem runsFrom_append (size : ℚ) (font : PFont) :
    ∀ (l1 l2 : List (List Char)) (y : ℚ),
    runsFrom size font y (l1 ++ l2)
      = runsFrom size font y l1
        ++ runsFrom size font (y - (l1.length : ℚ) * (12 * 1.5)) l2 := by
  intro l1
  induction l1 with
  | nil => intro l2 y; simp [runsFrom]
  | cons l l1 ih =>
    intro l2 y
    simp only [List.cons_append, runsFrom, List.length_cons, List.append_eq, ih]
    have h1 : y - 12 * 1.5 - (l1.length : ℚ) * (12 * 1.5)
        = y - (((l1.length + 1 : ℕ)) : ℚ) * (12 * 1.5) := by push_cast; ring
    rw [h1]

/-- C10: when the first `split(/\s+/)` token of a non-blank paragraph is a
word that is by itself wider than the usable width, the wrap loop pushes
the empty string as a completed line ahead of it, and the engine draws that
empty line: the paragraph's drawn runs start with an empty-text run at some
`y0` followed, one full line height lower, by the line carrying the
overlong word. -/
theorem C10_empty_line_before_overlong_word (wf : PFont → List Char → ℚ → ℚ)
    (st : LState) (para w : List Char) (ws : List (List Char))
    (hsplit : splitWs para = w :: ws)
    (hw : w ≠ [])
    (hblank : (trim para).isEmpty = false)
    (hwide : 612 - 50 * 2 < wf (fontOf para) w (sizeOf para)) :
    linesOfPara wf para
      = [] :: wrapWords wf (fontOf para) (sizeOf para) (612 - 50 * 2) ws w ∧
    ∃ y0 ext more,
      allRuns (placePara wf st para)
        = allRuns st
          ++ ⟨[], 50, y0, sizeOf para, fontOf para, (0, 0, 0)⟩
          :: ⟨w ++ ext, 50, y0 - 12 * 1.5, sizeOf para, fontOf para, (0, 0, 0)⟩
          :: more := by
  have hnle : ¬ wf (fontOf para) w (sizeOf para) ≤ 612 - 50 * 2 := not_le.mpr hwide
  have hlines : linesOfPara wf para
      = [] :: wrapWords wf (fontOf para) (sizeOf para) (612 - 50 * 2) ws w := by
    unfold linesOfPara
    rw [hsplit, wrapWords_cons]
    simp only [List.isEmpty_nil, if_true, hnle, if_false]
  refine ⟨hlines, ?_⟩
  obtain ⟨ext, rest, hhead⟩ := wrapWords_head_ext wf (fontOf para) (sizeOf para)
    (612 - 50 * 2) ws w hw
  have hlines2 : linesOfPara wf para = [] :: (w ++ ext) :: rest := by
    rw [hlines, hhead]
  have hlen2 : (2 : ℚ) ≤ ((linesOfPara wf para).length : ℚ) := by
    rw [hlines2]
    push_cast [List.length_cons]
    have : (0 : ℚ) ≤ (rest.length : ℚ) := Nat.cast_nonneg _
    linarith
  rw [placePara_eq wf st para hblank]
  dsimp only
  set st1 := if st.y - ((linesOfPara wf para).length : ℚ) * (12 * 1.5) < 50
    then newPage st else st with hst1
  have hruns1 : allRuns st1 = allRuns st := by
    rw [hst1]
    split
    · exact allRuns_newPage st
    · rfl
  have hy1 : ¬ st1.y - 12 * 1.5 < 50 := by
    rw [hst1]
    split
    · norm_num [newPage]
    · rename_i hpre
      push_neg at hpre
      push_neg
      nlinarith
  rw [allRuns_fields, hlines2, List.foldl_cons, List.foldl_cons,
    placeLine_eq (sizeOf para) (fontOf para) st1 [], if_neg hy1]
  obtain ⟨more, hmore⟩ := foldl_placeLine_allRuns_ext (sizeOf para) (fontOf para) rest
    (placeLine (sizeOf para) (fontOf para)
      ⟨st1.prev, st1.cur ++ [lineRun [] st1.y (sizeOf para) (fontOf para)], st1.y - 12 * 1.5⟩
      (w ++ ext))
  rw [hmore, placeLine_allRuns]
  refine ⟨st1.y, ext, more, ?_⟩
  have hr2 : st1.prev.flatten ++ st1.cur = allRuns st := hruns1
  rw [allRuns_mk]
  dsimp only
  rw [show st1.prev.flatten ++ (st1.cur ++ [lineRun [] st1.y (sizeOf para) (fontOf para)])
      = allRuns st ++ [lineRun [] st1.y (sizeOf para) (fontOf para)] from by
    rw [← List.append_assoc, hr2]]
  simp [lineRun]

unseal Rat.add Rat.sub Rat.mul Rat.inv Rat.ofScientific in
theorem C10_empty_line_before_overlong_word_witness :
    (linesOfPara cw "abc".data
      = [] :: wrapWords cw (fontOf "abc".data) (sizeOf "abc".data) (612 - 50 * 2)
          [] "abc".data) ∧
    ∃ y0 ext more,
      allRuns (placePara cw (titleState "doc.txt".data) "abc".data)
        = allRuns (titleState "doc.txt".data)
          ++ ⟨[], 50, y0, sizeOf "abc".data, fontOf "abc".data, (0, 0, 0)⟩
          :: ⟨"abc".data ++ ext, 50, y0 - 12 * 1.5, sizeOf "abc".data,
              fontOf "abc".data, (0, 0, 0)⟩
          :: more :=
  C10_empty_line_before_overlong_word cw (titleState "doc.txt".data) "abc".data
    "abc".data [] (by decide) (by decide) (by decide) (by decide)

/-- C9: the engine pre-checks, before drawing any line of a paragraph,
whether the paragraph's whole line block fits below the cursor
(`y - lines.length * lineHeight < margin`) and, if not, starts a fresh
page for the paragraph; consequently every non-blank paragraph whose
wrapped lines fit within one full page's usable height — at most 38 lines
at the default geometry — has all of its lines placed on a single page
(they form a contiguous suffix of one output page of the paragraph's
`placePara` step). -/
theorem C9_paragraph_fits_one_page (wf : PFont → List Char → ℚ → ℚ)
    (st : LState) (para : List Char)
    (hblank : (trim para).isEmpty = false)
    (hlen : (linesOfPara wf para).length ≤ 38) :
    ∃ y0 pg, pg ∈ pagesOf (placePara wf st para) ∧
      runsFrom (sizeOf para) (fontOf para) y0 (linesOfPara wf para) <:+ pg := by
  rw [placePara_eq wf st para hblank]
  dsimp only
  by_cases hpre : st.y - ((linesOfPara wf para).length : ℚ) * (12 * 1.5) < 50
  · rw [if_pos hpre]
    by_cases h37 : (linesOfPara wf para).length ≤ 37
    · have hfit : 50 ≤ (newPage st).y - ((linesOfPara wf para).length : ℚ) * (12 * 1.5) := by
        have hq : ((linesOfPara wf para).length : ℚ) ≤ 37 := by exact_mod_cast h37
        have : (newPage st).y = 792 - 50 - 12 := rfl
        rw [this]
        nlinarith
      rw [foldl_placeLine_noreset (sizeOf para) (fontOf para) (linesOfPara wf para)
        (newPage st) hfit]
      refine ⟨(newPage st).y, (newPage st).cur ++ runsFrom (sizeOf para) (fontOf para)
        (newPage st).y (linesOfPara wf para), ?_, ⟨(newPage st).cur, rfl⟩⟩
      simp [pagesOf]
    · have h38 : (linesOfPara wf para).length = 38 := by omega
      have hsplit38 : (linesOfPara wf para)
          = (linesOfPara wf para).take 37 ++ (linesOfPara wf para).drop 37 :=
        (List.take_append_drop 37 (linesOfPara wf para)).symm
      have hlen37 : ((linesOfPara wf para).take 37).length = 37 := by
        rw [List.length_take]
        omega
      have hdrop1 : ((linesOfPara wf para).drop 37).length = 1 := by
        rw [List.length_drop]
        omega
      obtain ⟨l38, hl38⟩ := List.length_eq_one.mp hdrop1
      have hfit : 50 ≤ (newPage st).y - (((linesOfPara wf para).take 37).length : ℚ)
          * (12 * 1.5) := by
        rw [hlen37]
        norm_num [newPage]
      rw [show (linesOfPara wf para).foldl
            (placeLine (sizeOf para) (fontOf para)) (newPage st)
          = ((linesOfPara wf para).take 37 ++ (linesOfPara wf para).drop 37).foldl
            (placeLine (sizeOf para) (fontOf para)) (newPage st) from by
        rw [← hsplit38]]
      rw [List.foldl_append,
        foldl_placeLine_noreset (sizeOf para) (fontOf para) _ (newPage st) hfit,
        hl38]
      rw [List.foldl_cons, List.foldl_nil, placeLine_eq]
      rw [if_pos (by rw [hlen37]; norm_num [newPage])]
      rw [hlen37]
      dsimp only
      refine ⟨(newPage st).y, (newPage st).cur
        ++ (runsFrom (sizeOf para) (fontOf para) (newPage st).y
            ((linesOfPara wf para).take 37)
          ++ [lineRun l38 ((newPage st).y - ((37 : ℕ) : ℚ)
              * (12 * 1.5)) (sizeOf para) (fontOf para)]), ?_, ?_⟩
      · simp [pagesOf]
      · refine ⟨(newPage st).cur, ?_⟩
        conv_lhs => rw [hsplit38, hl38]
        rw [runsFrom_append, hlen37]
        simp [runsFrom]
  · rw [if_neg hpre]
    push_neg at hpre
    rw [foldl_placeLine_noreset (sizeOf para) (fontOf para) (linesOfPara wf para) st hpre]
    refine ⟨st.y, st.cur ++ runsFrom (sizeOf para) (fontOf para) st.y (linesOfPara wf para),
      ?_, ⟨st.cur, rfl⟩⟩
    simp [pagesOf]

unseal Rat.add Rat.sub Rat.mul Rat.inv Rat.ofScientific in
theorem C9_paragraph_fits_one_page_witness :
    ∃ y0 pg, pg ∈ pagesOf (placePara cw (titleState "doc.txt".data) "a a".data) ∧
      runsFrom (sizeOf "a a".data) (fontOf "a a".data) y0
        (linesOfPara cw "a a".data) <:+ pg :=
  C9_paragraph_fits_one_page cw (titleState "doc.txt".data) "a a".data
    (by decide) (by decide)

unseal Rat.add Rat.sub Rat.mul Rat.inv Rat.ofScientific in
set_option maxRecDepth 1000000 in
/-- C1 (counterexample): with a width function under which the body wraps
into 36 one-character lines, the engine appends a new page and places the
whole paragraph there, leaving the first page with nothing but the title
and its footer — although the cursor stood at `792-50-18-18*1.5 = 697` and
the next line (needing `lineHeight = 18` above the margin `50`) would have
fit on the first page.  The overflow test is therefore pre-computed over
all of the paragraph's lines, and a page can be appended even though the
remaining space holds the next line, refuting the claim. -/
theorem C1_counterexample :
    (convertTextToPdf cw "doc.txt".data (aWords 36)).map (fun p => p.map TextRun.text)
      = [["doc".data, footerText 1 2],
         List.replicate 36 ['a'] ++ [footerText 2 2]] ∧
    (linesOfPara cw (aWords 36)).length = 36 ∧
    50 + 12 * 1.5 ≤ (792 : ℚ) - 50 - 18 - 18 * 1.5 := by
  refine ⟨by decide, by decide, by norm_num⟩

/-- C1 (amended): the engine starts a new page in two situations: after a
drawn line when the cursor has dropped below the margin, and — shown here —
just before a paragraph whenever `y - lines.length * lineHeight < margin`,
a test pre-computed over all of the paragraph's wrapped lines.  Hence even
when the remaining vertical space could hold the single line about to be
placed (`50 + 12*1.5 ≤ y`), the pre-check can append a new page: the
current page is closed unchanged, receiving none of the paragraph's
lines. -/
theorem C1_whole_paragraph_precheck (wf : PFont → List Char → ℚ → ℚ)
    (st : LState) (para : List Char)
    (hblank : (trim para).isEmpty = false)
    (hfit : 50 + 12 * 1.5 ≤ st.y)
    (hpre : st.y - ((linesOfPara wf para).length : ℚ) * (12 * 1.5) < 50) :
    st.prev.length < (placePara wf st para).prev.length ∧
      (placePara wf st para).prev[st.prev.length]? = some st.cur := by
  rw [placePara_eq wf st para hblank]
  dsimp only
  rw [if_pos hpre]
  obtain ⟨tail, htail⟩ := foldl_placeLine_prev_ext (sizeOf para) (fontOf para)
    (linesOfPara wf para) (newPage st)
  rw [htail]
  constructor
  · simp [newPage]
  · rw [show (newPage st).prev = st.prev ++ [st.cur] from rfl, List.append_assoc]
    rw [List.getElem?_append_right (Nat.le_refl _)]
    simp

unseal Rat.add Rat.sub Rat.mul Rat.inv Rat.ofScientific in
set_option maxRecDepth 1000000 in
theorem C1_whole_paragraph_precheck_witness :
    (titleState "doc.txt".data).prev.length
        < (placePara cw (titleState "doc.txt".data) (aWords 36)).prev.length ∧
      (placePara cw (titleState "doc.txt".data)
          (aWords 36)).prev[(titleState "doc.txt".data).prev.length]?
        = some (titleState "doc.txt".data).cur :=
  C1_whole_paragraph_precheck cw (titleState "doc.txt".data) (aWords 36)
    (by decide) (by norm_num [titleState]) (by decide)

unseal Rat.add Rat.sub Rat.mul Rat.inv Rat.ofScientific in
set_option maxRecDepth 1000000 in
/-- C2 (counterexample): a body paragraph wrapping into 42 > 41 lines at
the default geometry forces the engine to emit **three** pages — the title
page (its whole-paragraph pre-check moves the block to a fresh page), a
fresh page carrying 38 lines, and a third page with the remaining 4 —
so the first page's footer reads "Page 1 of 3", not "Page 1 of 2",
refuting the claimed footer text. -/
theorem C2_counterexample :
    (convertTextToPdf cw "doc.txt".data (aWords 42)).map (fun p => p.map TextRun.text)
      = [["doc".data, footerText 1 3],
         List.replicate 38 ['a'] ++ [footerText 2 3],
         List.replicate 4 ['a'] ++ [footerText 3 3]] ∧
    41 < (linesOfPara cw (aWords 42)).length ∧
    ¬ (((convertTextToPdf cw "doc.txt".data (aWords 42)).headD []).getLast?.map
        TextRun.text = some (footerText 1 2)) := by
  refine ⟨by decide, by decide, by decide⟩

theorem placePara_overflow (wf : PFont → List Char → ℚ → ℚ) (st : LState)
    (para : List Char)
    (hblank : (trim para).isEmpty = false)
    (hy : st.y ≤ 730)
    (hlen : 42 ≤ (linesOfPara wf para).length) :
    ∃ l39 e r, pagesOf (placePara wf st para)
      = (st.prev ++ [st.cur]
          ++ [runsFrom (sizeOf para) (fontOf para) (792 - 50 - 12)
              ((linesOfPara wf para).take 38)])
        ++ (lineRun l39 (792 - 50 - 12) (sizeOf para) (fontOf para) :: e) :: r ∧
      (linesOfPara wf para)[38]? = some l39 := by
  have hlq : (42 : ℚ) ≤ ((linesOfPara wf para).length : ℚ) := by exact_mod_cast hlen
  have hpre : st.y - ((linesOfPara wf para).length : ℚ) * (12 * 1.5) < 50 := by
    nlinarith
  rw [placePara_eq wf st para hblank]
  dsimp only
  rw [if_pos hpre]
  rw [foldl_placeLine_fresh (sizeOf para) (fontOf para) (linesOfPara wf para)
    (newPage st) 0 (by omega) (by norm_num [newPage]) (by omega)]
  simp only [Nat.sub_zero]
  have hd : 0 < ((linesOfPara wf para).drop 38).length := by
    rw [List.length_drop]
    omega
  obtain ⟨l39, rest2, hdrop⟩ :=
    List.exists_cons_of_ne_nil (List.ne_nil_of_length_pos hd)
  rw [hdrop, List.foldl_cons, placeLine_eq]
  rw [if_neg (by norm_num [newPage])]
  dsimp only [newPage]
  obtain ⟨e, r, hfold⟩ := foldl_placeLine_pages (sizeOf para) (fontOf para) rest2
    ⟨st.prev ++ [st.cur] ++ [[] ++ runsFrom (sizeOf para) (fontOf para) (792 - 50 - 12)
        ((linesOfPara wf para).take 38)],
      [] ++ [lineRun l39 (792 - 50 - 12) (sizeOf para) (fontOf para)],
      792 - 50 - 12 - 12 * 1.5⟩
  refine ⟨l39, e, r, ?_, ?_⟩
  · rw [pagesOf_fields, hfold]
    simp
  · have hg := List.getElem?_drop (linesOfPara wf para) 38 0
    rw [hdrop] at hg
    simpa using hg.symm

/-- C2 (amended): for every input whose body contains a non-blank paragraph
that greedy word-wrap turns into more than 41 lines at the default
geometry, the engine emits at least 2 pages — in fact at least 3 — the
paragraph's lines are split across a page boundary (one output page carries
exactly its first 38 wrapped lines and the following page begins with its
39th line, drawn at the fresh-page cursor), and the first page's footer
reads "Page 1 of N" where `N` is the true total page count (never
"Page 1 of 2", since N ≥ 3). -/
theorem C2_pagination_overflow (wf : PFont → List Char → ℚ → ℚ)
    (path text para : List Char)
    (hmem : para ∈ splitParas text)
    (hblank : (trim para).isEmpty = false)
    (hlen : 42 ≤ (linesOfPara wf para).length) :
    3 ≤ (convertTextToPdf wf path text).length ∧
    ((convertTextToPdf wf path text)[0]?).bind List.getLast?
      = some ⟨footerText 1 (convertTextToPdf wf path text).length, 50, 50 / 2, 10,
          .regular, (0.5, 0.5, 0.5)⟩ ∧
    ∃ i l39, (linesOfPara wf para)[38]? = some l39 ∧
      ((convertTextToPdf wf path text)[i]?).map
          (fun p => (p.map TextRun.text).dropLast)
        = some ((linesOfPara wf para).take 38) ∧
      (((convertTextToPdf wf path text)[i + 1]?).bind List.head?).map TextRun.text
        = some l39 := by
  obtain ⟨pre, post, hsp⟩ := List.append_of_mem hmem
  have hya : (pre.foldl (placePara wf) (titleState path)).y ≤ 730 :=
    foldl_placePara_y_le wf pre (titleState path) (by norm_num [titleState])
  obtain ⟨l39, e, r, hpg, hl39⟩ := placePara_overflow wf
    (pre.foldl (placePara wf) (titleState path)) para hblank hya hlen
  have hsplit : (splitParas text).foldl (placePara wf) (titleState path)
      = post.foldl (placePara wf)
        (placePara wf (pre.foldl (placePara wf) (titleState path)) para) := by
    rw [hsp, List.foldl_append, List.foldl_cons]
  have hpg2 : pagesOf (placePara wf (pre.foldl (placePara wf) (titleState path)) para)
      = ((pre.foldl (placePara wf) (titleState path)).prev
          ++ [(pre.foldl (placePara wf) (titleState path)).cur]
          ++ [runsFrom (sizeOf para) (fontOf para) (792 - 50 - 12)
              ((linesOfPara wf para).take 38)])
        ++ ([lineRun l39 (792 - 50 - 12) (sizeOf para) (fontOf para)] ++ e) :: r := by
    rw [hpg]
    simp
  have hglue := pages_glue hpg2
    (foldl_placePara_pages wf post
      (placePara wf (pre.foldl (placePara wf) (titleState path)) para))
  obtain ⟨e3, r3, hP⟩ := hglue
  rw [← hsplit] at hP
  -- the final page list, with the two pinned pages
  have hout : convertTextToPdf wf path text
      = addFooters (pagesOf ((splitParas text).foldl (placePara wf)
          (titleState path))).length 0
        (pagesOf ((splitParas text).foldl (placePara wf) (titleState path))) :=
    convertTextToPdf_eq wf path text
  have hlenP : 3 ≤ (pagesOf ((splitParas text).foldl (placePara wf)
      (titleState path))).length := by
    rw [hP]
    simp only [List.length_append, List.length_cons, List.length_singleton]
    omega
  have hlenout : (convertTextToPdf wf path text).length
      = (pagesOf ((splitParas text).foldl (placePara wf) (titleState path))).length := by
    rw [hout, addFooters_length]
  refine ⟨by rw [hlenout]; exact hlenP, ?_, ?_⟩
  · -- footer of the first page
    rcases hP0 : (pagesOf ((splitParas text).foldl (placePara wf)
        (titleState path)))[0]? with _ | p0
    · rw [List.getElem?_eq_none_iff] at hP0
      omega
    · rw [hlenout, hout, addFooters_getElem?, hP0]
      simp [List.getLast?_concat, footerRun]
  · -- the split pages
    have hXlen : ((pre.foldl (placePara wf) (titleState path)).prev
        ++ [(pre.foldl (placePara wf) (titleState path)).cur]).length
        = (pre.foldl (placePara wf) (titleState path)).prev.length + 1 := by
      simp
    have hi : (pagesOf ((splitParas text).foldl (placePara wf) (titleState path)))[
        (pre.foldl (placePara wf) (titleState path)).prev.length + 1]?
        = some (runsFrom (sizeOf para) (fontOf para) (792 - 50 - 12)
            ((linesOfPara wf para).take 38)) := by
      rw [hP, List.append_assoc, ← hXlen,
        List.getElem?_append_right (Nat.le_refl _)]
      simp
    have hi2 : (pagesOf ((splitParas text).foldl (placePara wf) (titleState path)))[
        (pre.foldl (placePara wf) (titleState path)).prev.length + 1 + 1]?
        = some ([lineRun l39 (792 - 50 - 12) (sizeOf para) (fontOf para)] ++ e3) := by
      have hBlen : ((pre.foldl (placePara wf) (titleState path)).prev
          ++ [(pre.foldl (placePara wf) (titleState path)).cur]
          ++ [runsFrom (sizeOf para) (fontOf para) (792 - 50 - 12)
              ((linesOfPara wf para).take 38)]).length
          = (pre.foldl (placePara wf) (titleState path)).prev.length + 1 + 1 := by
        simp
      rw [hP, ← hBlen, List.getElem?_append_right (Nat.le_refl _)]
      simp
    refine ⟨(pre.foldl (placePara wf) (titleState path)).prev.length + 1, l39,
      hl39, ?_, ?_⟩
    · rw [hout, addFooters_getElem?, hi]
      simp [List.dropLast_concat, runsFrom_texts]
    · rw [hout, addFooters_getElem?, hi2]
      simp [lineRun]

unseal Rat.add Rat.sub Rat.mul Rat.inv Rat.ofScientific in
set_option maxRecDepth 1000000 in
theorem C2_pagination_overflow_witness :
    3 ≤ (convertTextToPdf cw "doc.txt".data (aWords 42)).length ∧
    ((convertTextToPdf cw "doc.txt".data (aWords 42))[0]?).bind List.getLast?
      = some ⟨footerText 1 (convertTextToPdf cw "doc.txt".data (aWords 42)).length,
          50, 50 / 2, 10, .regular, (0.5, 0.5, 0.5)⟩ ∧
    ∃ i l39, (linesOfPara cw (aWords 42))[38]? = some l39 ∧
      ((convertTextToPdf cw "doc.txt".data (aWords 42))[i]?).map
          (fun p => (p.map TextRun.text).dropLast)
        = some ((linesOfPara cw (aWords 42)).take 38) ∧
      (((convertTextToPdf cw "doc.txt".data (aWords 42))[i + 1]?).bind
          List.head?).map TextRun.text
        = some l39 :=
  C2_pagination_overflow cw "doc.txt".data (aWords 42) (aWords 42)
    (by decide) (by decide) (by decide)


end TextApp
